import Mathlib

/-!
Verification development for the `cemcp` sandboxed filesystem server
(`src/main.go`, `src/pathutil.go`, `src/helpers.go`, `src/search.go` and the
unnamed revisions).  The Go code is shallowly embedded: the filesystem is a
finite association list from absolute-path components to nodes, machine
integers become `Nat`/`Int`, fallible operations return `Except`, and the
concurrent search worker pool of `search.go` becomes an explicit small-step
interleaving machine.  External library calls (`crypto/sha256`,
`mime.TypeByExtension`) are parameters of the model; `net/url`,
`base64` and `doublestar` are modelled for the input subsets the server
actually feeds them (documented at each definition).
-/

namespace Cemcp

/-! ## Bytes and strings -/

/-- UTF-8 encoding of a single character, as Go produces for `[]byte(string)`. -/
def utf8Char (c : Char) : List Nat :=
  let n := c.toNat
  if n < 0x80 then [n]
  else if n < 0x800 then [0xC0 + n / 64, 0x80 + n % 64]
  else if n < 0x10000 then [0xE0 + n / 4096, 0x80 + (n / 64) % 64, 0x80 + n % 64]
  else [0xF0 + n / 262144, 0x80 + (n / 4096) % 64, 0x80 + (n / 64) % 64, 0x80 + n % 64]

/-- Go's `[]byte(s)`: the UTF-8 bytes of a string. -/
def utf8Bytes (s : String) : List Nat :=
  (s.data.map utf8Char).flatten

/-- Byte-transparent rendering of bytes back into a `String` field of a result
record (`string(buf)` in Go).  No claim inspects this field, so the model maps
each byte to one character. -/
def strFromBytes (bs : List Nat) : String :=
  String.mk (bs.map Char.ofNat)

/-- `isText` from `main.go`: every byte is TAB/LF/CR or a non-control,
non-DEL byte. -/
def isText (b : List Nat) : Bool :=
  b.all fun c => c = 9 || c = 10 || c = 13 || (32 ≤ c && c != 0x7f)

/-- Structural prefix test on character lists (first argument is the
prefix). -/
def listPrefix : List Char → List Char → Bool
  | [], _ => true
  | _ :: _, [] => false
  | a :: as, b :: bs => if a = b then listPrefix as bs else false

/-- `strings.HasPrefix(s, pre)`. -/
def strHasPrefix (s pre : String) : Bool :=
  listPrefix pre.data s.data

/-- Occurrence of `needle` anywhere in `hay`. -/
def containsList : List Char → List Char → Bool
  | hay, needle =>
    if listPrefix needle hay then true
    else
      match hay with
      | [] => false
      | _ :: t => containsList t needle

/-- `strings.Contains(hay, needle)`: byte-level substring test
(modelled at character level, which agrees on the valid UTF-8 strings the
server handles). -/
def containsStr (hay needle : String) : Bool :=
  containsList hay.data needle.data

/-! ## Lexical path operations (`path/filepath` on a Unix host) -/

/-- Split a string into its `/`-separated non-empty components
(`filepath.SplitList`-style worker used throughout the model).  The
accumulator holds the current component reversed. -/
def splitCompsAux : List Char → List Char → List String
  | [], cur => if cur.isEmpty then [] else [String.mk cur.reverse]
  | c :: cs, cur =>
    if c = '/' then
      if cur.isEmpty then splitCompsAux cs []
      else String.mk cur.reverse :: splitCompsAux cs []
    else splitCompsAux cs (c :: cur)

/-- Non-empty `/`-separated components of a path string. -/
def splitPath (s : String) : List String :=
  splitCompsAux s.data []

/-- Go `filepath.IsAbs` on Unix. -/
def isAbs (s : String) : Bool :=
  strHasPrefix s "/"

/-- One step of `filepath.Clean`'s element processing: `.` is dropped, `..`
pops the stack (kept at the front of a relative path, dropped at the root of
an absolute one), anything else is pushed.  The stack is reversed. -/
def cleanStep (abs : Bool) (stack : List String) (c : String) : List String :=
  if c = "." then stack
  else if c = ".." then
    match stack with
    | [] => if abs then [] else [".."]
    | top :: rest => if top = ".." then c :: stack else rest
  else c :: stack

/-- The cleaned component list of a path. -/
def cleanComps (abs : Bool) (cs : List String) : List String :=
  (cs.foldl (cleanStep abs) []).reverse

/-- Go `filepath.Clean` on Unix paths. -/
def clean (s : String) : String :=
  let ab := isAbs s
  let cs := cleanComps ab (splitPath s)
  if ab then "/" ++ String.intercalate "/" cs
  else if cs.isEmpty then "." else String.intercalate "/" cs

/-- Go `filepath.Join(a, b)` (empty elements skipped, result cleaned). -/
def joinPath (a b : String) : String :=
  if a = "" then (if b = "" then "" else clean b)
  else if b = "" then clean a
  else clean (a ++ "/" ++ b)

/-- Go `filepath.Split`: everything up to and including the final slash,
and the remainder. -/
def splitDirBase (s : String) : String × String :=
  let cs := s.data
  let baseLen := (cs.reverse.takeWhile (fun c => c ≠ '/')).length
  (String.mk (cs.take (cs.length - baseLen)), String.mk (cs.drop (cs.length - baseLen)))

/-- `mustAbs` from `pathutil.go`/`main.go` wraps `filepath.Abs`, which on an
absolute path is just `filepath.Clean`; every call site in the embedded code
passes an absolute string (the root is absolutised at startup), so the model
is `clean`. -/
def mustAbs (s : String) : String :=
  clean s

/-- Render absolute components back into a path string. -/
def compsToPath (cs : List String) : String :=
  "/" ++ String.intercalate "/" cs

/-! ## The filesystem model -/

/-- A filesystem node: regular file contents, a directory, or a symbolic
link with its (possibly relative) target string.  Permission bits and
timestamps are outside the model; no claim depends on them. -/
inductive Node
  | file (content : List Nat)
  | dir
  | link (target : String)
  deriving Repr, DecidableEq

/-- A filesystem: an association list from absolute-path component lists to
nodes.  Earlier entries shadow later ones. -/
def FS := List (List String × Node)

instance : DecidableEq FS := by
  unfold FS
  infer_instance

/-- First-match association lookup (`os.Lstat` on the exact key). -/
def fsFind : FS → List String → Option Node
  | [], _ => none
  | (k, n) :: rest, p => if k = p then some n else fsFind rest p

/-- Create or replace the node at a key. -/
def fsSet (fs : FS) (p : List String) (n : Node) : FS :=
  (p, n) :: fs

/-- Remove every entry at a key (`os.Remove`). -/
def fsRemove : FS → List String → FS
  | [], _ => []
  | (k, n) :: rest, p => if k = p then fsRemove rest p else (k, n) :: fsRemove rest p

/-- Errors of symlink resolution. -/
inductive EvalErr
  | notExist
  | notDir
  | tooManyLinks
  deriving Repr, DecidableEq

/-- Worker for `filepath.EvalSymlinks`: walk the components left to right,
resolving every symlink met on the way (absolute targets restart from the
root, relative ones continue from the current directory), failing with
`notExist` as soon as a component is missing.  Fuel bounds the total number
of steps; Go bounds only the link count (255), so with ample fuel the two
agree on every input that Go resolves. -/
def evalComps (fs : FS) : Nat → List String → List String → Except EvalErr (List String)
  | 0, _, _ => .error .tooManyLinks
  | _ + 1, resolved, [] => .ok resolved
  | fuel + 1, resolved, c :: rest =>
    if c = "" || c = "." then evalComps fs fuel resolved rest
    else if c = ".." then evalComps fs fuel resolved.dropLast rest
    else
      match fsFind fs (resolved ++ [c]) with
      | none => .error .notExist
      | some .dir => evalComps fs fuel (resolved ++ [c]) rest
      | some (.file _) =>
        if rest.isEmpty then .ok (resolved ++ [c]) else .error .notDir
      | some (.link t) =>
        if isAbs t then evalComps fs fuel [] (splitPath t ++ rest)
        else evalComps fs fuel resolved (splitPath t ++ rest)

/-- Default resolution fuel; far larger than any path in the claims. -/
def evalFuel : Nat := 4096

/-- `filepath.EvalSymlinks` on an absolute path. -/
def evalSymlinks (fs : FS) (p : String) : Except EvalErr String :=
  (evalComps fs evalFuel [] (splitPath p)).map compsToPath

/-! ## Error taxonomy of the embedded handlers -/

inductive FsErr
  | pathRequired      -- "path is required"
  | invalidURI        -- "invalid file URI"
  | pathEscape        -- "refusing to access outside root"
  | symlinkEscape     -- "refusing to access symlink outside root"
  | evalFailed        -- EvalSymlinks failed other than with ErrNotExist
  | encodingRequired  -- "encoding is required: text|base64"
  | invalidBase64     -- "invalid base64 content"
  | invalidMode       -- "invalid mode"
  | notFound          -- os stat/open: file does not exist
  | isSymlink         -- "refusing to write to symlink"
  | isDirectory       -- "target is a directory"
  | notRegular        -- "... target not a regular file"
  | alreadyExists     -- "exists" (no_clobber)
  | invalidRange      -- "invalid range [s,e)"
  | startEndRequired  -- "start and end required for replace_range"
  | lockTimeout       -- "lock timeout"
  | unknownStrategy   -- "unknown strategy"
  | readFailed        -- reading an opened handle failed (e.g. a directory)
  | ioError           -- any other I/O failure
  deriving Repr, DecidableEq

/-! ## `file://` URIs and percent decoding (`net/url` modelled)

`safeJoin` feeds a `file://...` request through `url.Parse` and
`url.PathUnescape`.  The model covers the subset the server sees: scheme
`file://`, an authority running to the first `/`, and a path component;
`url.Parse` percent-decodes the path and rejects malformed escapes, and
`url.PathUnescape` decodes once more (Go's documented double-decode on
already-decoded paths).  Queries/fragments are not modelled. -/

/-- Value of a hexadecimal digit. -/
def hexVal (c : Char) : Option Nat :=
  if '0' ≤ c ∧ c ≤ '9' then some (c.toNat - '0'.toNat)
  else if 'a' ≤ c ∧ c ≤ 'f' then some (c.toNat - 'a'.toNat + 10)
  else if 'A' ≤ c ∧ c ≤ 'F' then some (c.toNat - 'A'.toNat + 10)
  else none

/-- Percent-decode a character list; `none` on a malformed escape. -/
def percentDecode : List Char → Option (List Char)
  | [] => some []
  | '%' :: a :: b :: rest =>
    match hexVal a, hexVal b with
    | some x, some y => (percentDecode rest).map (Char.ofNat (16 * x + y) :: ·)
    | _, _ => none
  | '%' :: _ => none
  | c :: rest => (percentDecode rest).map (c :: ·)

/-- Percent-decode a string. -/
def percentDecodeStr (s : String) : Option String :=
  (percentDecode s.data).map String.mk

/-- The `u.Path` that `url.Parse` produces for a `file://` request: drop the
scheme, drop the authority (up to the first `/`), percent-decode the rest;
error on malformed escapes. -/
def parseFileURIPath (req : String) : Except FsErr String :=
  let rest := req.data.drop 7                -- past "file://"
  let path := String.mk (rest.dropWhile (fun c => c ≠ '/'))
  match percentDecodeStr path with
  | some p => .ok p
  | none => .error .invalidURI

/-! ## Path containment (`pathutil.go` / `main.go`) -/

/-- The prefix-with-trailing-separator containment test of `safeJoin`:
`strings.HasPrefix(p+"/", root+"/") || p == root`. -/
def underRoot (rootResolved p : String) : Bool :=
  strHasPrefix (p ++ "/") (rootResolved ++ "/") || p = rootResolved

/-- `rootResolved` as computed inside `safeJoin`/`safeJoinResolveFinal`:
the absolutised root, symlink-resolved when resolution succeeds. -/
def resolveRoot (fs : FS) (root : String) : String :=
  match evalSymlinks fs (mustAbs root) with
  | .ok r2 => r2
  | .error _ => mustAbs root

/-- `safeJoin(root, reqPath)`: URI-decode, lexically normalise, resolve the
parent directory chain, and accept the result only when it stays under the
resolved root (final component not followed). -/
def safeJoin (fs : FS) (root reqPath : String) : Except FsErr String :=
  if reqPath = "" then .error .pathRequired
  else
    let decoded : Except FsErr String :=
      if strHasPrefix reqPath "file://" then
        match parseFileURIPath reqPath with
        | .error e => .error e
        | .ok uPath =>
          match percentDecodeStr uPath with
          | some unesc => if unesc ≠ "" then .ok unesc else .ok uPath
          | none => .ok uPath
      else .ok reqPath
    match decoded with
    | .error e => .error e
    | .ok rp =>
      let cl := clean rp
      let rootResolved := resolveRoot fs root
      if isAbs cl then
        let finalAbs := mustAbs cl
        if underRoot rootResolved finalAbs then .ok finalAbs
        else .error .pathEscape
      else
        let db := splitDirBase cl
        let parent := joinPath (mustAbs root) db.1
        let parentResolved :=
          match evalSymlinks fs parent with
          | .ok pr => pr
          | .error _ => mustAbs parent
        let finalAbs := mustAbs (joinPath parentResolved db.2)
        if underRoot rootResolved finalAbs then .ok finalAbs
        else .error .pathEscape

/-- `safeJoinResolveFinal`: `safeJoin`, then follow the final component and
re-check containment of the fully resolved target; a missing target falls
back to the parent-resolved path. -/
def safeJoinResolveFinal (fs : FS) (root reqPath : String) : Except FsErr String :=
  match safeJoin fs root reqPath with
  | .error e => .error e
  | .ok p =>
    match evalSymlinks fs p with
    | .error .notExist => .ok p
    | .error _ => .error .evalFailed
    | .ok resolved =>
      let rootResolved := resolveRoot fs root
      let resolvedAbs := mustAbs resolved
      if underRoot rootResolved resolvedAbs then .ok resolvedAbs
      else .error .symlinkEscape

/-! ## Classification helpers (`main.go` / `helpers.go`) -/

/-- Resource caps from `main.go`. -/
def maxHashBytes : Nat := 32 * 1024 * 1024

def maxPeekBytesForSniff : Nat := 1024 * 1024

def defaultReadMaxBytes : Nat := 64 * 1024

def defaultPeekMaxBytes : Nat := 4 * 1024

def defaultListMaxEntries : Nat := 1000

def defaultGlobMaxResults : Nat := 1000

def defaultSearchMaxResults : Nat := 100

/-- Go `filepath.Ext`: the suffix of the final path element starting at its
last dot, `""` when there is none. -/
def extOf (name : String) : String :=
  let tail := name.data.reverse.takeWhile (fun c => c ≠ '/')
  let e := tail.takeWhile (fun c => c ≠ '.')
  if e.length = tail.length then ""
  else String.mk ('.' :: e.reverse)

/-- `detectMIME`: extension lookup first (the `mime.TypeByExtension` table is
an external input, passed as `mimeT`; `""` means no entry), then the
text-vs-binary heuristic. -/
def detectMIME (mimeT : String → String) (name : String) (sample : List Nat) : String :=
  let ext := extOf name
  if ext ≠ "" ∧ mimeT ext ≠ "" then mimeT ext
  else if isText sample then "text/plain; charset=utf-8"
  else "application/octet-stream"

/-- Standard base64 alphabet. -/
def b64CharAt (n : Nat) : Char :=
  "ABCDEFGHIJKLMNOPQRSTUVWXYZabcdefghijklmnopqrstuvwxyz0123456789+/".data.getD n 'A'

/-- `base64.StdEncoding.EncodeToString`. -/
def b64Encode : List Nat → List Char
  | [] => []
  | [a] => [b64CharAt (a / 4), b64CharAt (a % 4 * 16), '=', '=']
  | [a, b] => [b64CharAt (a / 4), b64CharAt (a % 4 * 16 + b / 16), b64CharAt (b % 16 * 4), '=']
  | a :: b :: c :: rest =>
    b64CharAt (a / 4) :: b64CharAt (a % 4 * 16 + b / 16) ::
    b64CharAt (b % 16 * 4 + c / 64) :: b64CharAt (c % 64) :: b64Encode rest

def b64EncodeStr (bs : List Nat) : String :=
  String.mk (b64Encode bs)

/-- Value of one base64 alphabet character. -/
def b64Val (c : Char) : Option Nat :=
  if 'A' ≤ c ∧ c ≤ 'Z' then some (c.toNat - 'A'.toNat)
  else if 'a' ≤ c ∧ c ≤ 'z' then some (c.toNat - 'a'.toNat + 26)
  else if '0' ≤ c ∧ c ≤ '9' then some (c.toNat - '0'.toNat + 52)
  else if c = '+' then some 62
  else if c = '/' then some 63
  else none

/-- `base64.StdEncoding.DecodeString` for inputs without embedded newlines:
four-character quanta, padding only in the final quantum. -/
def b64Decode : List Char → Option (List Nat)
  | [] => some []
  | a :: b :: '=' :: '=' :: [] =>
    match b64Val a, b64Val b with
    | some x, some y => if y % 16 = 0 then some [x * 4 + y / 16] else none
    | _, _ => none
  | a :: b :: c :: '=' :: [] =>
    match b64Val a, b64Val b, b64Val c with
    | some x, some y, some z =>
      if z % 4 = 0 then some [x * 4 + y / 16, y % 16 * 16 + z / 4] else none
    | _, _, _ => none
  | a :: b :: c :: d :: rest =>
    match b64Val a, b64Val b, b64Val c, b64Val d with
    | some x, some y, some z, some w =>
      (b64Decode rest).map fun tl => (x * 4 + y / 16) :: (y % 16 * 16 + z / 4) :: (z % 4 * 64 + w) :: tl
    | _, _, _, _ => none
  | _ => none

/-- Decode the request `content` per the request `encoding`, as `handleWrite`
does: base64 is decoded (failing on bad input), anything else is taken as
UTF-8 text bytes. -/
def decodeContent (enc content : String) : Except FsErr (List Nat) :=
  if enc = "base64" then
    match b64Decode content.data with
    | some bs => .ok bs
    | none => .error .invalidBase64
  else .ok (utf8Bytes content)

/-! ## `readWindow` and the peek/read handlers -/

/-- `readWindow(path, offset, max)` from `main.go`, over the node found at
the (already resolved) path: clamp a negative offset to zero, report
EOF immediately past the end, otherwise read at most `max` bytes (defaulted
when non-positive) from the offset.  Returns (bytes, size, eof). -/
def readWindow (node : Option Node) (offset maxBytes : Int) : Except FsErr (List Nat × Nat × Bool) :=
  match node with
  | none => .error .notFound
  | some (.link _) => .error .notFound
  | some .dir => .error .readFailed
  | some (.file c) =>
    let sz := c.length
    let off : Int := if offset < 0 then 0 else offset
    if off > (sz : Int) then .ok ([], sz, true)
    else
      let m : Int := if maxBytes ≤ 0 then (defaultPeekMaxBytes : Int) else maxBytes
      let chunk := (c.drop off.toNat).take m.toNat
      .ok (chunk, sz, decide ((off.toNat + chunk.length : Nat) ≥ sz))

structure PeekArgs where
  path : String
  offset : Int
  maxBytes : Int
  deriving Repr, DecidableEq

structure PeekResult where
  path : String
  offset : Int
  size : Nat
  eof : Bool
  encoding : String
  content : String
  deriving Repr, DecidableEq

/-- `handlePeek`: resolve fully, read a window, choose text/base64 by
sniffing the chunk.  (The `Lstat` for mode/mtime metadata is outside the
model.) -/
def handlePeek (fs : FS) (root : String) (args : PeekArgs) : Except FsErr PeekResult :=
  let maxB : Int := if args.maxBytes ≤ 0 then (defaultPeekMaxBytes : Int) else args.maxBytes
  match safeJoinResolveFinal fs root args.path with
  | .error e => .error e
  | .ok full =>
    match readWindow (fsFind fs (splitPath full)) args.offset maxB with
    | .error e => .error e
    | .ok (chunk, sz, eof) =>
      let txt := isText chunk
      .ok { path := args.path, offset := args.offset, size := sz, eof := eof,
            encoding := if txt then "text" else "base64",
            content := if txt then strFromBytes chunk else b64EncodeStr chunk }

structure ReadArgs where
  path : String
  encoding : String
  maxBytes : Int
  deriving Repr, DecidableEq

structure ReadResult where
  path : String
  size : Nat
  mimeType : String
  sha256 : String
  encoding : String
  content : String
  truncated : Bool
  deriving Repr, DecidableEq

/-- `handleRead`: resolve fully, stat, read up to the limit, hash the whole
file when within the cap, sniff an encoding when none is forced.
`hash` stands for the SHA-256 digest-to-hex function. -/
def handleRead (hash : List Nat → String) (mimeT : String → String)
    (fs : FS) (root : String) (args : ReadArgs) : Except FsErr ReadResult :=
  match safeJoinResolveFinal fs root args.path with
  | .error e => .error e
  | .ok full =>
    match fsFind fs (splitPath full) with
    | none => .error .notFound
    | some (.link _) => .error .notFound
    | some .dir => .error .readFailed
    | some (.file c) =>
      let limit : Int := if args.maxBytes ≤ 0 then (defaultReadMaxBytes : Int) else args.maxBytes
      let buf := c.take limit.toNat
      let trunc := decide (c.length > buf.length)
      let sha := if c.length ≤ maxHashBytes then hash c else ""
      let enc :=
        if args.encoding = "" then
          (if isText (buf.take maxPeekBytesForSniff) then "text" else "base64")
        else args.encoding
      .ok { path := args.path, size := c.length,
            mimeType := detectMIME mimeT full buf, sha256 := sha,
            encoding := enc,
            content := if enc = "base64" then b64EncodeStr buf else strFromBytes buf,
            truncated := trunc }

/-! ## The write handler (`handleWrite` of `main.go` / `part_002`) -/

/-- `parseMode`: empty means 0644; otherwise a `0`-prefixed octal literal is
parsed (`strconv.ParseUint(s, 0, 32)`; the `0x`/`0b` and underscore forms
never produced by the schema are outside the model). -/
def parseMode (s : String) : Except FsErr Nat :=
  if s = "" then .ok 0o644
  else
    let t := String.mk (if strHasPrefix s "0" then s.data.drop 1 else s.data)
    if t.data ≠ [] ∧ t.data.all (fun c => '0' ≤ c ∧ c ≤ '7') then
      .ok (t.data.foldl (fun acc c => acc * 8 + (c.toNat - '0'.toNat)) 0)
    else if t.data = [] then .ok 0
    else .error .invalidMode

/-- `os.MkdirAll` on the parent chain: every existing prefix must be a
directory, missing prefixes are created. -/
def mkdirAllAux (fs : FS) (pre : List String) : List String → Except FsErr FS
  | [] => .ok fs
  | c :: rest =>
    match fsFind fs (pre ++ [c]) with
    | some .dir => mkdirAllAux fs (pre ++ [c]) rest
    | some _ => .error .ioError
    | none => mkdirAllAux (fsSet fs (pre ++ [c]) .dir) (pre ++ [c]) rest

/-- `ensureParent`: `MkdirAll(filepath.Dir(path))`. -/
def ensureParent (fs : FS) (comps : List String) : Except FsErr FS :=
  mkdirAllAux fs [] comps.dropLast

/-- `atomicWrite` stages to a temporary sibling and renames over the target;
its net effect on the tree is the post-rename state (staging I/O failures
are outside the sequential model, so the temporary file never survives). -/
def atomicWriteFs (fs : FS) (comps : List String) (data : List Nat) : FS :=
  fsSet fs comps (.file data)

def strategyOverwrite : String := "overwrite"

def strategyNoClobber : String := "no_clobber"

def strategyAppend : String := "append"

def strategyPrepend : String := "prepend"

def strategyReplaceRange : String := "replace_range"

structure WriteArgs where
  path : String
  encoding : String
  content : String
  strategy : String
  createDirs : Option Bool
  mode : String
  startIdx : Option Int   -- source field `Start`
  endIdx : Option Int     -- source field `End`
  deriving Repr, DecidableEq

structure WriteResult where
  path : String
  action : String
  bytes : Nat
  created : Bool
  mimeType : String
  sha256 : String
  deriving Repr, DecidableEq

def isLinkNode : Option Node → Bool
  | some (.link _) => true
  | _ => false

def isDirNode : Option Node → Bool
  | some .dir => true
  | _ => false

def isRegNode : Option Node → Bool
  | some (.file _) => true
  | _ => false

def contentOf : Option Node → List Nat
  | some (.file c) => c
  | _ => []

/-- The strategy switch of `handleWrite`, from the locked section: given the
pre-`Lstat` result it returns the mutated tree, the (re-assigned) `data`
slice and the `created` flag, or the error the source returns there. -/
def writeSwitch (fs : FS) (comps : List String) (pre : Option Node) (st : String)
    (data : List Nat) (startIdx endIdx : Option Int) :
    Except FsErr (FS × List Nat × Bool) :=
  if st = strategyNoClobber then
    if pre.isSome then .error .alreadyExists
    else .ok (atomicWriteFs fs comps data, data, true)
  else if st = strategyOverwrite then
    .ok (atomicWriteFs fs comps data, data, pre.isNone)
  else if st = strategyAppend then
    if pre.isSome ∧ ¬ isRegNode pre then .error .notRegular
    else
      let old := contentOf pre
      .ok (fsSet fs comps (.file (old ++ data)), data, pre.isNone)
  else if st = strategyPrepend then
    if pre.isSome ∧ ¬ isRegNode pre then .error .notRegular
    else
      let buf := data ++ contentOf pre
      .ok (atomicWriteFs fs comps buf, buf, pre.isNone)
  else if st = strategyReplaceRange then
    if pre.isNone then .error .notFound
    else if ¬ isRegNode pre then .error .notRegular
    else
      let old := contentOf pre
      match startIdx, endIdx with
      | some s, some e =>
        if s < 0 ∨ e < s ∨ e > (old.length : Int) then .error .invalidRange
        else
          let buf := old.take s.toNat ++ data ++ old.drop e.toNat
          .ok (atomicWriteFs fs comps buf, buf, false)
      | _, _ => .error .startEndRequired
  else .error .unknownStrategy

/-- `handleWrite`.  `hash` stands for SHA-256-to-hex, `mimeT` for the
`mime.TypeByExtension` table.  The sentinel-lock acquisition is the
sequential collapse of `acquireLock` (modelled with time in `acquireLoop`
below): with no concurrent releaser, a present sentinel means the retry loop
times out, an absent one is taken at once.  Returns the final tree alongside
the result, every error path included. -/
def handleWrite (hash : List Nat → String) (mimeT : String → String)
    (fs : FS) (root : String) (args : WriteArgs) : FS × Except FsErr WriteResult :=
  if args.encoding = "" then (fs, .error .encodingRequired)
  else
    match safeJoin fs root args.path with
    | .error e => (fs, .error e)
    | .ok full =>
      let comps := splitPath full
      match (if (args.createDirs.getD false) = true then ensureParent fs comps else .ok fs) with
      | .error e => (fs, .error e)
      | .ok fs1 =>
        match parseMode args.mode with
        | .error e => (fs1, .error e)
        | .ok _mode =>
          match decodeContent args.encoding args.content with
          | .error e => (fs1, .error e)
          | .ok data =>
            let st := if args.strategy = "" then strategyOverwrite else args.strategy
            let pre := fsFind fs1 comps
            if isLinkNode pre then (fs1, .error .isSymlink)
            else if isDirNode pre ∧ (st = strategyOverwrite ∨ st = strategyNoClobber) then
              (fs1, .error .isDirectory)
            else
              let lockComps := splitPath (full ++ ".lock")
              match fsFind fs1 lockComps with
              | some _ => (fs1, .error .lockTimeout)
              | none =>
                let fs2 := fsSet fs1 lockComps (.file (utf8Bytes "pid"))
                match writeSwitch fs2 comps pre st data args.startIdx args.endIdx with
                | .error e => (fsRemove fs2 lockComps, .error e)
                | .ok (fs3, data2, created) =>
                  -- `final := data; if b, err := os.ReadFile(full); err == nil { final = b }`
                  let final := match fsFind fs3 comps with
                    | some (.file c) => c
                    | _ => data2
                  let res : WriteResult :=
                    { path := args.path, action := st, bytes := final.length,
                      created := created,
                      mimeType := detectMIME mimeT full final,
                      sha256 := if final.length ≤ maxHashBytes then hash final else "" }
                  (fsRemove fs3 lockComps, .ok res)

/-! ## The advisory lock loop (`acquireLock` of `main.go` / `helpers.go`)

Time is in milliseconds.  The sentinel is `some mtime` when the `.lock` file
exists.  Each iteration mirrors the source: try the exclusive create (which
succeeds exactly when the sentinel is absent), evict and retry immediately
when the sentinel is older than ten minutes, return `LockTimeout` once past
the deadline, otherwise sleep 50 ms and retry.  The context is never
cancelled in the model; fuel bounds the iteration count. -/

def staleMs : Nat := 10 * 60 * 1000

def retryMs : Nat := 50

inductive LockOutcome
  | acquired (at_ : Nat)
  | timedOut (at_ : Nat)
  | outOfFuel
  deriving Repr, DecidableEq

def acquireLoop (deadline : Nat) : Option Nat → Nat → Nat → LockOutcome
  | _, _, 0 => .outOfFuel
  | none, now, _ + 1 => .acquired now
  | some mt, now, fuel + 1 =>
    if now - mt > staleMs then acquireLoop deadline none now fuel
    else if now > deadline then .timedOut now
    else acquireLoop deadline (some mt) (now + retryMs) fuel

/-! ## Search

`main.go`'s `handleSearch` is a sequential `WalkDir`: the walker's output is
modelled as the list of regular files it reaches (directories and symlinks
are skipped by the walk itself), each with its scanned lines. -/

structure SFile where
  path : String
  lines : List String
  deriving Repr, DecidableEq

structure SearchMatch where
  path : String
  line : Nat
  text : String
  deriving Repr, DecidableEq

/-- One file of the sequential scan loop: append every matching line,
stopping (with `true`, the `errStop` signal) once the accumulated matches
reach `max`. -/
def scanFileSeq (pat : String) (p : String) : Nat → List String → Nat →
    List SearchMatch → List SearchMatch × Bool
  | _, [], _, acc => (acc, false)
  | n, l :: ls, max, acc =>
    if containsStr l pat then
      let acc2 := acc ++ [⟨p, n, l⟩]
      if max ≤ acc2.length then (acc2, true)
      else scanFileSeq pat p (n + 1) ls max acc2
    else scanFileSeq pat p (n + 1) ls max acc

/-- The sequential walk of `main.go`: scan files in order until a file
reports the stop signal. -/
def searchSeq (pat : String) (max : Nat) : List SFile → List SearchMatch →
    List SearchMatch
  | [], acc => acc
  | f :: fsx, acc =>
    match scanFileSeq pat f.path 1 f.lines max acc with
    | (acc2, true) => acc2
    | (acc2, false) => searchSeq pat max fsx acc2

/-- Matching lines over the whole walk. -/
def totalMatches (pat : String) (files : List SFile) : Nat :=
  (files.map fun f => (f.lines.filter (fun l => containsStr l pat)).length).sum

/-! ### The concurrent worker pool of `search.go`, as a small-step machine

The walker goroutine, the buffered `files` channel, the workers and the
mutex-protected `matches` slice become one state; a schedule chooses which
task takes the next atomic step.  The worker body follows the source
faithfully: it checks `ctx.Err()` only after taking a file from the channel,
scans the file line by line with no further cancellation check, and inside
the critical section it appends the match first and only then compares
`len(matches)` with `max`, cancelling and returning when the cap is reached. -/

inductive WStatus
  | idle
  | scanning (path : String) (lineNo : Nat) (lines : List String)
  | done
  deriving Repr, DecidableEq

structure CState where
  pending : List SFile
  walkerClosed : Bool
  queue : List SFile
  workers : List WStatus
  found : List SearchMatch   -- the source slice `matches`
  cancelled : Bool
  deriving Repr, DecidableEq

/-- One step of the walker: emit the next file, or stop early when
cancelled, closing the channel when done. -/
def walkStep (s : CState) : CState :=
  if s.walkerClosed then s
  else if s.cancelled then { s with pending := [], walkerClosed := true }
  else
    match s.pending with
    | [] => { s with walkerClosed := true }
    | f :: rest => { s with pending := rest, queue := s.queue ++ [f] }

/-- One step of worker `i`. -/
def workStep (pat : String) (max : Nat) (s : CState) (i : Nat) : CState :=
  match s.workers.getD i .done with
  | .done => s
  | .idle =>
    match s.queue with
    | [] => if s.walkerClosed then { s with workers := s.workers.set i .done } else s
    | f :: qrest =>
      if s.cancelled then { s with queue := qrest, workers := s.workers.set i .done }
      else { s with queue := qrest, workers := s.workers.set i (.scanning f.path 1 f.lines) }
  | .scanning _ _ [] => { s with workers := s.workers.set i .idle }
  | .scanning p n (l :: ls) =>
    if containsStr l pat then
      let ms := s.found ++ [⟨p, n, l⟩]
      if max ≤ ms.length then
        { s with found := ms, cancelled := true, workers := s.workers.set i .done }
      else { s with found := ms, workers := s.workers.set i (.scanning p (n + 1) ls) }
    else { s with workers := s.workers.set i (.scanning p (n + 1) ls) }

inductive SchedStep
  | walk
  | work (i : Nat)
  deriving Repr, DecidableEq

/-- Run the machine under a schedule. -/
def crun (pat : String) (max : Nat) : CState → List SchedStep → CState
  | s, [] => s
  | s, .walk :: rest => crun pat max (walkStep s) rest
  | s, .work i :: rest => crun pat max (workStep pat max s i) rest

/-- Initial state for a walk emitting `files` with `n` workers. -/
def cinit (files : List SFile) (n : Nat) : CState :=
  { pending := files, walkerClosed := false, queue := [],
    workers := List.replicate n .idle, found := [], cancelled := false }

/-! ## Glob (`part_022`, `doublestar.Match`)

`doublestar.Match` works on `/`-separated segments: `**` spans zero or more
segments, `*` and `?` match within one segment.  The model covers patterns
without character classes, braces or escapes — all the server's claims use. -/

/-- Star absorption: let `*` (or `**`) absorb zero or more leading items and
try the rest of the pattern (`k`) on every remaining suffix. -/
def starSkip {α : Type} (k : List α → Bool) : List α → Bool
  | [] => k []
  | c :: cs => k (c :: cs) || starSkip k cs

/-- Match one pattern segment against one name segment: `*` matches any run
of characters within the segment, `?` any single character. -/
def matchSeg : List Char → List Char → Bool
  | [], cs => cs.isEmpty
  | p :: ps', cs =>
    if p = '*' then starSkip (matchSeg ps') cs
    else
      match cs with
      | [] => false
      | c :: cs' => ((p = '?') || (p = c)) && matchSeg ps' cs'

/-- Match pattern segments against name segments; `**` consumes zero or
more name segments. -/
def matchSegs : List String → List String → Bool
  | [], segs => segs.isEmpty
  | p :: ps', segs =>
    if p = "**" then starSkip (matchSegs ps') segs
    else
      match segs with
      | [] => false
      | s :: segs' => matchSeg p.data s.data && matchSegs ps' segs'

/-- `doublestar.Match(pattern, name)` on slash paths. -/
def dsMatch (pattern name : String) : Bool :=
  matchSegs (splitPath pattern) (splitPath name)

/-- `handleGlob` of `part_022`: validate the pattern stays under root, clean
it, then keep the walked root-relative paths matching the pattern, capped
(the worker pool checks the cap before appending, so the pool is equivalent
to this sequential filter-and-truncate on the walker's output `paths`). -/
def handleGlob (fs : FS) (root : String) (paths : List String)
    (pattern : String) (maxResults : Int) : Except FsErr (List String) :=
  if pattern = "" then .error .pathRequired
  else
    match safeJoin fs root pattern with
    | .error e => .error e
    | .ok _ =>
      let maxN : Nat := if maxResults ≤ 0 then defaultGlobMaxResults else maxResults.toNat
      let pat := clean pattern
      .ok ((paths.filter (fun p => dsMatch pat p)).take maxN)

/-! ## Concrete fixtures used by witnesses and counterexamples -/

/-- A placeholder digest function for concrete runs. -/
def hashW : List Nat → String := fun bs => "h" ++ toString bs.length

/-- An empty `mime.TypeByExtension` table for concrete runs. -/
def mimeW : String → String := fun _ => ""

/-- Root `/root` next to `/etc/passwd` and a sibling `/root-evil`. -/
def fsC1 : FS :=
  [([], .dir), (["root"], .dir), (["etc"], .dir), (["etc", "passwd"], .file [112]),
   (["root-evil"], .dir), (["root", "a"], .file [2])]

/-- Root `/root` containing symlinks `leak` (absolute) and `rel` (relative)
to `/etc/secret`, and an in-root symlink `good`. -/
def fsC2 : FS :=
  [([], .dir), (["root"], .dir), (["etc"], .dir), (["etc", "secret"], .file [1, 2]),
   (["root", "leak"], .link "/etc/secret"), (["root", "rel"], .link "../etc/secret"),
   (["root", "good"], .link "inner/x"), (["root", "inner"], .dir),
   (["root", "inner", "x"], .file [9])]

/-- An empty root. -/
def fsC3 : FS := [([], .dir), (["root"], .dir)]

/-- A root with a pre-existing `f.txt`. -/
def fsC4 : FS := [([], .dir), (["root"], .dir), (["root", "f.txt"], .file [7])]

/-- A root whose `f.txt` holds three bytes. -/
def fsC5 : FS := [([], .dir), (["root"], .dir), (["root", "f.txt"], .file [1, 2, 3])]

/-- A write request against `f.txt` in text encoding. -/
def wargs (content strategy : String) (s e : Option Int) : WriteArgs :=
  { path := "f.txt", encoding := "text", content := content, strategy := strategy,
    createDirs := none, mode := "", startIdx := s, endIdx := e }

/-- The four-step strategy round trip of the spec, threading the tree
through `overwrite "A"`, `append "C"`, `prepend "Z"`,
`replace_range(1,2) "XY"` and returning the final bytes of `f.txt` when
every step succeeded. -/
def c3Run (hash : List Nat → String) (mimeT : String → String) : Option (List Nat) :=
  match handleWrite hash mimeT fsC3 "/root" (wargs "A" strategyOverwrite none none) with
  | (_, .error _) => none
  | (fs1, .ok _) =>
    match handleWrite hash mimeT fs1 "/root" (wargs "C" strategyAppend none none) with
    | (_, .error _) => none
    | (fs2, .ok _) =>
      match handleWrite hash mimeT fs2 "/root" (wargs "Z" strategyPrepend none none) with
      | (_, .error _) => none
      | (fs3, .ok _) =>
        match handleWrite hash mimeT fs3 "/root"
            (wargs "XY" strategyReplaceRange (some 1) (some 2)) with
        | (_, .error _) => none
        | (fs4, .ok _) =>
          match fsFind fs4 ["root", "f.txt"] with
          | some (.file c) => some c
          | _ => none

/-- Two single-line files that both match the pattern `x`. -/
def filesC6 : List SFile := [⟨"a.txt", ["x"]⟩, ⟨"b.txt", ["x"]⟩]

/-- The racing schedule: the walker emits both files, each worker takes one,
worker 0 records its match (reaching the cap and cancelling), then worker 1
— already mid-file, past its only cancellation check — records another. -/
def schedC6 : List SchedStep := [.walk, .walk, .work 0, .work 1, .work 0, .work 1]

/-! ## Association-list and path lemmas -/

theorem fsFind_set_self (fs : FS) (p : List String) (n : Node) :
    fsFind (fsSet fs p n) p = some n := by
  simp [fsFind, fsSet]

theorem fsFind_set_ne (fs : FS) (p q : List String) (n : Node) (h : q ≠ p) :
    fsFind (fsSet fs p n) q = fsFind fs q := by
  simp only [fsFind, fsSet]
  exact if_neg fun hh => h hh.symm

theorem fsRemove_of_find_none (fs : FS) (p : List String) (h : fsFind fs p = none) :
    fsRemove fs p = fs := by
  induction fs with
  | nil => rfl
  | cons e rest ih =>
    obtain ⟨k, n⟩ := e
    by_cases hk : k = p
    · simp [fsFind, hk] at h
    · simp [fsFind, hk] at h
      simp [fsRemove, hk, ih h]

theorem fsFind_remove_ne (fs : FS) (p q : List String) (h : q ≠ p) :
    fsFind (fsRemove fs p) q = fsFind fs q := by
  induction fs with
  | nil => rfl
  | cons e rest ih =>
    obtain ⟨k, n⟩ := e
    simp only [fsRemove, fsFind]
    by_cases hk : k = p
    · rw [if_pos hk, ih, if_neg fun hh => h ((hk ▸ hh : p = q).symm)]
    · rw [if_neg hk]
      simp only [fsFind]
      by_cases hq : k = q
      · rw [if_pos hq, if_pos hq]
      · rw [if_neg hq, if_neg hq, ih]

theorem fsRemove_set (fs : FS) (p : List String) (n : Node) (h : fsFind fs p = none) :
    fsRemove (fsSet fs p n) p = fs := by
  simp [fsSet, fsRemove, fsRemove_of_find_none fs p h]

/-- Evaluating `splitCompsAux` on the characters of `.lock`. -/
theorem splitCompsAux_lockData (cur : List Char) :
    splitCompsAux (".lock".data) cur
      = [String.mk (cur.reverse ++ ['.', 'l', 'o', 'c', 'k'])] := by
  show splitCompsAux ('.' :: 'l' :: 'o' :: 'c' :: 'k' :: []) cur = _
  simp [splitCompsAux]

/-- Appending `.lock` to a path always changes its component list: the lock
sentinel never aliases its target. -/
theorem splitCompsAux_append_lock (cs : List Char) (cur : List Char) :
    splitCompsAux (cs ++ ".lock".data) cur ≠ splitCompsAux cs cur := by
  induction cs generalizing cur with
  | nil =>
    intro hEq
    rw [List.nil_append, splitCompsAux_lockData] at hEq
    rcases hcur : cur with _ | ⟨c, cur2⟩
    · subst hcur
      simp [splitCompsAux] at hEq
    · subst hcur
      simp only [splitCompsAux] at hEq
      rw [if_neg (by simp)] at hEq
      rw [List.cons.injEq] at hEq
      have hlen := congrArg (fun s => s.data.length) hEq.1
      simp at hlen
  | cons c cs ih =>
    intro hEq
    rw [List.cons_append] at hEq
    simp only [splitCompsAux] at hEq
    by_cases hc : c = '/'
    · rw [if_pos hc, if_pos hc] at hEq
      by_cases hcur : cur.isEmpty
      · rw [if_pos hcur, if_pos hcur] at hEq
        exact ih [] hEq
      · rw [if_neg hcur, if_neg hcur, List.cons.injEq] at hEq
        exact ih [] hEq.2
    · rw [if_neg hc, if_neg hc] at hEq
      exact ih (c :: cur) hEq

theorem splitPath_lock_ne (s : String) : splitPath (s ++ ".lock") ≠ splitPath s := by
  have hd : (s ++ ".lock").data = s.data ++ ".lock".data := by
    cases s
    rfl
  unfold splitPath
  rw [hd]
  exact splitCompsAux_append_lock s.data []

/-! ## Claim theorems -/

/-- C1: `safeJoin` returns a path only when it passes the
prefix-with-trailing-separator containment check against the resolved root
(exact equality with the root also accepted); the canonical escape attempts
— a `..` climb-out, an absolute path outside the root, a `file://` URI
pointing outside the root, and the sibling `/root-evil` sharing the root as
a plain string prefix — are all rejected with the path-escape error, while
an in-root relative path and the root itself are accepted. -/
theorem safeJoin_containment :
    (∀ (fs : FS) (root req p : String), safeJoin fs root req = .ok p →
      underRoot (resolveRoot fs root) p = true)
    ∧ safeJoin fsC1 "/root" "../etc/passwd" = .error .pathEscape
    ∧ safeJoin fsC1 "/root" "/etc/passwd" = .error .pathEscape
    ∧ safeJoin fsC1 "/root" "file:///etc/passwd" = .error .pathEscape
    ∧ safeJoin fsC1 "/root" "/root-evil" = .error .pathEscape
    ∧ safeJoin fsC1 "/root" "a" = .ok "/root/a"
    ∧ safeJoin fsC1 "/root" "/root" = .ok "/root" := by
  refine ⟨?_, rfl, rfl, rfl, rfl, rfl, rfl⟩
  intro fs root req p h
  simp only [safeJoin] at h
  split at h
  · exact Except.noConfusion h
  · split at h
    · exact Except.noConfusion h
    · split at h
      · split at h
        · rename_i hguard
          injection h with h2
          subst h2
          exact hguard
        · exact Except.noConfusion h
      · split at h
        · rename_i hguard
          injection h with h2
          subst h2
          exact hguard
        · exact Except.noConfusion h

/-- C1 witness: the containment conclusion instantiated at a concrete
successful resolution. -/
theorem safeJoin_containment_witness :
    underRoot (resolveRoot fsC1 "/root") "/root/a" = true :=
  safeJoin_containment.1 fsC1 "/root" "a" "/root/a" rfl

/-- C2: a symlink inside the root whose fully resolved target lands outside
the root makes `safeJoinResolveFinal` — and with it the fully-resolved
`read` and `peek` operations — fail with the symlink-escape error instead
of returning a path to the external target. -/
theorem symlinkEscape_read_peek :
    ∀ (hash : List Nat → String) (mimeT : String → String) (fs : FS)
      (root req p r : String) (off mb : Int),
      safeJoin fs root req = .ok p →
      evalSymlinks fs p = .ok r →
      underRoot (resolveRoot fs root) (mustAbs r) = false →
      safeJoinResolveFinal fs root req = .error .symlinkEscape
      ∧ handleRead hash mimeT fs root ⟨req, "", 0⟩ = .error .symlinkEscape
      ∧ handlePeek fs root ⟨req, off, mb⟩ = .error .symlinkEscape := by
  intro hash mimeT fs root req p r off mb h1 h2 h3
  have hs : safeJoinResolveFinal fs root req = .error .symlinkEscape := by
    unfold safeJoinResolveFinal
    simp only [h1]
    simp only [h2]
    simp [h3]
  refine ⟨hs, ?_, ?_⟩
  · unfold handleRead
    rw [hs]
  · unfold handlePeek
    rw [hs]

/-- C2 witness: the absolute symlink `/root/leak → /etc/secret` is rejected
by the resolver, by `read` and by `peek`. -/
theorem symlinkEscape_read_peek_witness :
    safeJoinResolveFinal fsC2 "/root" "leak" = .error .symlinkEscape
    ∧ handleRead hashW mimeW fsC2 "/root" ⟨"leak", "", 0⟩ = .error .symlinkEscape
    ∧ handlePeek fsC2 "/root" ⟨"leak", 0, 0⟩ = .error .symlinkEscape :=
  symlinkEscape_read_peek hashW mimeW fsC2 "/root" "leak" "/root/leak" "/etc/secret"
    0 0 rfl rfl rfl

/-- Reading a window from an existing regular file always succeeds. -/
theorem readWindow_file_ok (c : List Nat) (off mb : Int) :
    ∃ v, readWindow (some (.file c)) off mb = .ok v := by
  unfold readWindow
  dsimp only
  split <;> (try split) <;> exact ⟨_, rfl⟩

/-- C10: the offset can never fail a peek of an existing regular file: a
window read always succeeds, a negative offset behaves as offset zero, an
offset at or past the size yields empty content with EOF set and the true
size reported, and `handlePeek` succeeds whenever resolution found a
regular file, whatever the offset. -/
theorem peek_offset_total :
    (∀ (c : List Nat) (off mb : Int), ∃ v, readWindow (some (.file c)) off mb = .ok v)
    ∧ (∀ (c : List Nat) (off mb : Int), off < 0 →
        readWindow (some (.file c)) off mb = readWindow (some (.file c)) 0 mb)
    ∧ (∀ (c : List Nat) (off mb : Int), (c.length : Int) ≤ off →
        readWindow (some (.file c)) off mb = .ok ([], c.length, true))
    ∧ (∀ (fs : FS) (root : String) (args : PeekArgs) (full : String) (c : List Nat),
        safeJoinResolveFinal fs root args.path = .ok full →
        fsFind fs (splitPath full) = some (.file c) →
        ∃ res, handlePeek fs root args = .ok res) := by
  refine ⟨readWindow_file_ok, ?_, ?_, ?_⟩
  · intro c off mb hoff
    unfold readWindow
    simp only [hoff, if_pos, if_neg]
    norm_num
  · intro c off mb hoff
    unfold readWindow
    dsimp only
    have h0 : ¬ off < 0 := by omega
    simp only [if_neg h0]
    by_cases hgt : off > (c.length : Int)
    · simp only [if_pos hgt]
    · simp only [if_neg hgt]
      have hEq : off.toNat = c.length := by omega
      rw [hEq, List.drop_length]
      simp
  · intro fs root args full c h1 h2
    unfold handlePeek
    simp only [h1]
    simp only [h2]
    obtain ⟨⟨chunk, sz, eof⟩, hv⟩ :=
      readWindow_file_ok c args.offset
        (if args.maxBytes ≤ 0 then (defaultPeekMaxBytes : Int) else args.maxBytes)
    simp only [hv]
    exact ⟨_, rfl⟩

/-- C10 witness: concrete negative, past-the-end and huge offsets. -/
theorem peek_offset_total_witness :
    readWindow (some (.file [1, 2, 3])) (-2) 4 = readWindow (some (.file [1, 2, 3])) 0 4
    ∧ readWindow (some (.file [1, 2, 3])) 5 4 = .ok ([], 3, true)
    ∧ ∃ res, handlePeek fsC2 "/root" ⟨"inner/x", 99, 0⟩ = .ok res :=
  ⟨peek_offset_total.2.1 [1, 2, 3] (-2) 4 (by norm_num),
   peek_offset_total.2.2.1 [1, 2, 3] 5 4 (by norm_num),
   peek_offset_total.2.2.2 fsC2 "/root" ⟨"inner/x", 99, 0⟩ "/root/inner/x" [9] rfl rfl⟩

/-- C3: starting from a root in which `f.txt` does not exist, the sequence
overwrite "A", append "C", prepend "Z", replace_range(1,2) "XY" succeeds at
every step and leaves the file holding exactly the bytes of "ZXYC". -/
theorem write_strategy_round_trip :
    ∀ (hash : List Nat → String) (mimeT : String → String),
      c3Run hash mimeT = some (utf8Bytes "ZXYC") := by
  intro hash mimeT
  rfl

/-- C4: a `no_clobber` write against an existing file fails with the
already-exists error and leaves the tree — in particular the target's
content — exactly as it was. -/
theorem noClobber_preserves :
    ∀ (hash : List Nat → String) (mimeT : String → String) (fs : FS)
      (root : String) (args : WriteArgs) (full : String) (c : List Nat),
      args.strategy = strategyNoClobber →
      args.encoding = "text" →
      args.mode = "" →
      args.createDirs = none →
      safeJoin fs root args.path = .ok full →
      fsFind fs (splitPath full) = some (.file c) →
      fsFind fs (splitPath (full ++ ".lock")) = none →
      handleWrite hash mimeT fs root args = (fs, .error .alreadyExists)
      ∧ fsFind (handleWrite hash mimeT fs root args).1 (splitPath full) = some (.file c) := by
  intro hash mimeT fs root args full c hSt hEnc hMode hCD hSafe hPre hLock
  have hMain : handleWrite hash mimeT fs root args = (fs, .error .alreadyExists) := by
    unfold handleWrite
    simp only [hEnc, hSafe, hCD, hMode, hSt, hPre, hLock, Option.getD_none,
      show ¬("text" : String) = "" by decide,
      show parseMode "" = .ok 0o644 from rfl,
      show ∀ s, decodeContent "text" s = .ok (utf8Bytes s) from fun _ => rfl,
      show ¬(strategyNoClobber : String) = "" by decide,
      isLinkNode, isDirNode, writeSwitch, Option.isSome_some, Option.isNone_some,
      Bool.false_eq_true, false_and, and_false, if_false, reduceIte]
    rw [fsRemove_set fs _ _ hLock]
  exact ⟨hMain, by rw [hMain]; exact hPre⟩

/-- C4 witness: the pre-existing `f.txt` (content `[7]`) survives a failed
`no_clobber` write untouched. -/
theorem noClobber_preserves_witness :
    handleWrite hashW mimeW fsC4 "/root" (wargs "Q" strategyNoClobber none none)
      = (fsC4, .error .alreadyExists)
    ∧ fsFind (handleWrite hashW mimeW fsC4 "/root" (wargs "Q" strategyNoClobber none none)).1
        (splitPath "/root/f.txt") = some (.file [7]) :=
  noClobber_preserves hashW mimeW fsC4 "/root" (wargs "Q" strategyNoClobber none none)
    "/root/f.txt" [7] rfl rfl rfl rfl rfl rfl rfl

/-- C5: a `replace_range(start, end)` write against an existing regular
file of length L fails with the invalid-range error exactly when
`start < 0`, `end < start` or `end > L`; on a valid range the call succeeds
and the final content is `old[:start] ++ payload ++ old[end:]`; and when
the target does not exist the call fails (replace_range requires an
existing file) instead of creating it, leaving the tree unchanged. -/
theorem replaceRange_semantics :
    ∀ (hash : List Nat → String) (mimeT : String → String) (fs : FS)
      (root : String) (args : WriteArgs) (full : String) (s e : Int),
      args.strategy = strategyReplaceRange →
      args.encoding = "text" →
      args.mode = "" →
      args.createDirs = none →
      args.startIdx = some s →
      args.endIdx = some e →
      safeJoin fs root args.path = .ok full →
      fsFind fs (splitPath (full ++ ".lock")) = none →
      (∀ c, fsFind fs (splitPath full) = some (.file c) →
        ((s < 0 ∨ e < s ∨ (c.length : Int) < e) →
            handleWrite hash mimeT fs root args = (fs, .error .invalidRange))
        ∧ (0 ≤ s → s ≤ e → e ≤ (c.length : Int) →
            ∃ fs2 res, handleWrite hash mimeT fs root args = (fs2, .ok res)
            ∧ fsFind fs2 (splitPath full)
                = some (.file (c.take s.toNat ++ utf8Bytes args.content ++ c.drop e.toNat))))
      ∧ (fsFind fs (splitPath full) = none →
          handleWrite hash mimeT fs root args = (fs, .error .notFound)) := by
  intro hash mimeT fs root args full s e hSt hEnc hMode hCD hS hE hSafe hLock
  constructor
  · intro c hPre
    constructor
    · intro hInv
      unfold handleWrite
      simp only [hEnc, hSafe, hCD, hMode, hSt, hPre, hLock, hS, hE, Option.getD_none,
        show ¬("text" : String) = "" by decide,
        show parseMode "" = .ok 0o644 from rfl,
        show ∀ t, decodeContent "text" t = .ok (utf8Bytes t) from fun _ => rfl,
        show ¬(strategyReplaceRange : String) = "" by decide,
        show ¬(strategyReplaceRange : String) = strategyNoClobber by decide,
        show ¬(strategyReplaceRange : String) = strategyOverwrite by decide,
        show ¬(strategyReplaceRange : String) = strategyAppend by decide,
        show ¬(strategyReplaceRange : String) = strategyPrepend by decide,
        isLinkNode, isDirNode, isRegNode, writeSwitch, contentOf,
        Option.isSome_some, Option.isNone_some, not_true,
        Bool.false_eq_true, false_and, and_false, false_or, if_false, reduceIte]
      rw [if_pos (by omega : s < 0 ∨ e < s ∨ e > (c.length : Int))]
      dsimp only
      rw [fsRemove_set fs _ _ hLock]
    · intro h0 h1 h2
      unfold handleWrite
      simp only [hEnc, hSafe, hCD, hMode, hSt, hPre, hLock, hS, hE, Option.getD_none,
        show ¬("text" : String) = "" by decide,
        show parseMode "" = .ok 0o644 from rfl,
        show ∀ t, decodeContent "text" t = .ok (utf8Bytes t) from fun _ => rfl,
        show ¬(strategyReplaceRange : String) = "" by decide,
        show ¬(strategyReplaceRange : String) = strategyNoClobber by decide,
        show ¬(strategyReplaceRange : String) = strategyOverwrite by decide,
        show ¬(strategyReplaceRange : String) = strategyAppend by decide,
        show ¬(strategyReplaceRange : String) = strategyPrepend by decide,
        isLinkNode, isDirNode, isRegNode, writeSwitch, contentOf,
        Option.isSome_some, Option.isNone_some, not_true,
        Bool.false_eq_true, false_and, and_false, false_or, if_false, reduceIte]
      rw [if_neg (by omega : ¬(s < 0 ∨ e < s ∨ e > (c.length : Int)))]
      dsimp only
      simp only [atomicWriteFs, fsFind_set_self]
      refine ⟨_, _, rfl, ?_⟩
      rw [fsFind_remove_ne _ _ _ (splitPath_lock_ne full).symm]
      exact fsFind_set_self _ _ _
  · intro hPre
    unfold handleWrite
    simp only [hEnc, hSafe, hCD, hMode, hSt, hPre, hLock, hS, hE, Option.getD_none,
      show ¬("text" : String) = "" by decide,
      show parseMode "" = .ok 0o644 from rfl,
      show ∀ t, decodeContent "text" t = .ok (utf8Bytes t) from fun _ => rfl,
      show ¬(strategyReplaceRange : String) = "" by decide,
      show ¬(strategyReplaceRange : String) = strategyNoClobber by decide,
      show ¬(strategyReplaceRange : String) = strategyOverwrite by decide,
      show ¬(strategyReplaceRange : String) = strategyAppend by decide,
      show ¬(strategyReplaceRange : String) = strategyPrepend by decide,
      isLinkNode, isDirNode, isRegNode, writeSwitch, contentOf,
      Option.isSome_none, Option.isNone_none, not_true,
      Bool.false_eq_true, false_and, and_false, false_or, if_false, reduceIte]
    rw [fsRemove_set fs _ _ hLock]

/-- C5 witness: on content `[1,2,3]`, range `(0,9)` is rejected, range
`(1,2)` splices to `1 ++ "XY" ++ 3`, and a missing target is an error. -/
theorem replaceRange_semantics_witness :
    (handleWrite hashW mimeW fsC5 "/root" (wargs "W" strategyReplaceRange (some 0) (some 9))
       = (fsC5, .error .invalidRange))
    ∧ (∃ fs2 res,
        handleWrite hashW mimeW fsC5 "/root" (wargs "XY" strategyReplaceRange (some 1) (some 2))
          = (fs2, .ok res)
        ∧ fsFind fs2 (splitPath "/root/f.txt")
            = some (.file (([1, 2, 3] : List Nat).take (1 : Int).toNat
                ++ utf8Bytes "XY" ++ ([1, 2, 3] : List Nat).drop (2 : Int).toNat)))
    ∧ (handleWrite hashW mimeW fsC3 "/root" (wargs "W" strategyReplaceRange (some 0) (some 0))
       = (fsC3, .error .notFound)) := by
  refine ⟨?_, ?_, ?_⟩
  · exact ((replaceRange_semantics hashW mimeW fsC5 "/root"
      (wargs "W" strategyReplaceRange (some 0) (some 9)) "/root/f.txt" 0 9
      rfl rfl rfl rfl rfl rfl rfl rfl).1 [1, 2, 3] rfl).1 (by norm_num)
  · exact ((replaceRange_semantics hashW mimeW fsC5 "/root"
      (wargs "XY" strategyReplaceRange (some 1) (some 2)) "/root/f.txt" 1 2
      rfl rfl rfl rfl rfl rfl rfl rfl).1 [1, 2, 3] rfl).2 (by norm_num) (by norm_num)
      (by norm_num)
  · exact (replaceRange_semantics hashW mimeW fsC3 "/root"
      (wargs "W" strategyReplaceRange (some 0) (some 0)) "/root/f.txt" 0 0
      rfl rfl rfl rfl rfl rfl rfl rfl).2 rfl

/-- Every successful strategy switch leaves a regular file at the target. -/
theorem writeSwitch_ok_file (fs : FS) (comps : List String) (pre : Option Node) (st : String)
    (data : List Nat) (si ei : Option Int) (fs3 : FS) (d2 : List Nat) (cr : Bool)
    (h : writeSwitch fs comps pre st data si ei = .ok (fs3, d2, cr)) :
    ∃ b, fsFind fs3 comps = some (.file b) := by
  unfold writeSwitch at h
  by_cases h1 : st = strategyNoClobber
  · rw [if_pos h1] at h
    by_cases hp : pre.isSome = true
    · rw [if_pos hp] at h
      exact Except.noConfusion h
    · rw [if_neg hp] at h
      simp only [Except.ok.injEq, Prod.mk.injEq] at h
      obtain ⟨hf, -, -⟩ := h
      subst hf
      exact ⟨_, fsFind_set_self _ _ _⟩
  · rw [if_neg h1] at h
    by_cases h2 : st = strategyOverwrite
    · rw [if_pos h2] at h
      simp only [Except.ok.injEq, Prod.mk.injEq] at h
      obtain ⟨hf, -, -⟩ := h
      subst hf
      exact ⟨_, fsFind_set_self _ _ _⟩
    · rw [if_neg h2] at h
      by_cases h3 : st = strategyAppend
      · rw [if_pos h3] at h
        by_cases hr : pre.isSome = true ∧ ¬ isRegNode pre = true
        · rw [if_pos hr] at h
          exact Except.noConfusion h
        · rw [if_neg hr] at h
          simp only [Except.ok.injEq, Prod.mk.injEq] at h
          obtain ⟨hf, -, -⟩ := h
          subst hf
          exact ⟨_, fsFind_set_self _ _ _⟩
      · rw [if_neg h3] at h
        by_cases h4 : st = strategyPrepend
        · rw [if_pos h4] at h
          by_cases hr : pre.isSome = true ∧ ¬ isRegNode pre = true
          · rw [if_pos hr] at h
            exact Except.noConfusion h
          · rw [if_neg hr] at h
            simp only [Except.ok.injEq, Prod.mk.injEq] at h
            obtain ⟨hf, -, -⟩ := h
            subst hf
            exact ⟨_, fsFind_set_self _ _ _⟩
        · rw [if_neg h4] at h
          by_cases h5 : st = strategyReplaceRange
          · rw [if_pos h5] at h
            by_cases hn : pre.isNone = true
            · rw [if_pos hn] at h
              exact Except.noConfusion h
            · rw [if_neg hn] at h
              by_cases hr : ¬ isRegNode pre = true
              · rw [if_pos hr] at h
                exact Except.noConfusion h
              · rw [if_neg hr] at h
                cases si with
                | none => exact Except.noConfusion h
                | some sv =>
                  cases ei with
                  | none => exact Except.noConfusion h
                  | some ev =>
                    dsimp only at h
                    by_cases hrange :
                        sv < 0 ∨ ev < sv ∨ ev > ((contentOf pre).length : Int)
                    · rw [if_pos hrange] at h
                      exact Except.noConfusion h
                    · rw [if_neg hrange] at h
                      simp only [Except.ok.injEq, Prod.mk.injEq] at h
                      obtain ⟨hf, -, -⟩ := h
                      subst hf
                      exact ⟨_, fsFind_set_self _ _ _⟩
          · rw [if_neg h5] at h
            exact Except.noConfusion h

/-- C9: every completed write reports, in its SHA-256 field, the digest of
exactly the final bytes of the file when their size is at or below the
32 MiB cap, and the empty string when the size exceeds the cap; the bytes
field is the final size either way. -/
theorem write_sha_gating :
    ∀ (hash : List Nat → String) (mimeT : String → String) (fs : FS) (root : String)
      (args : WriteArgs) (fs2 : FS) (res : WriteResult),
      handleWrite hash mimeT fs root args = (fs2, .ok res) →
      ∃ full b, safeJoin fs root args.path = .ok full
        ∧ fsFind fs2 (splitPath full) = some (.file b)
        ∧ res.bytes = b.length
        ∧ res.sha256 = (if b.length ≤ maxHashBytes then hash b else "") := by
  intro hash mimeT fs root args fs2 res h
  unfold handleWrite at h
  by_cases hE0 : args.encoding = ""
  · rw [if_pos hE0] at h
    exact absurd (congrArg Prod.snd h) (by simp)
  · rw [if_neg hE0] at h
    cases hSJ : safeJoin fs root args.path with
    | error e =>
      simp only [hSJ] at h
      exact absurd (congrArg Prod.snd h) (by simp)
    | ok full =>
      simp only [hSJ] at h
      cases hEP : (if (args.createDirs.getD false) = true
          then ensureParent fs (splitPath full) else .ok fs) with
      | error e =>
        simp only [hEP] at h
        exact absurd (congrArg Prod.snd h) (by simp)
      | ok fs1 =>
        simp only [hEP] at h
        cases hPM : parseMode args.mode with
        | error e =>
          simp only [hPM] at h
          exact absurd (congrArg Prod.snd h) (by simp)
        | ok md =>
          simp only [hPM] at h
          cases hDC : decodeContent args.encoding args.content with
          | error e =>
            simp only [hDC] at h
            exact absurd (congrArg Prod.snd h) (by simp)
          | ok dataV =>
            simp only [hDC] at h
            set st := (if args.strategy = "" then strategyOverwrite else args.strategy)
              with hst
            set pre := fsFind fs1 (splitPath full) with hpre
            by_cases hLk : isLinkNode pre = true
            · rw [if_pos hLk] at h
              exact absurd (congrArg Prod.snd h) (by simp)
            · rw [if_neg hLk] at h
              by_cases hDir : isDirNode pre = true
                  ∧ (st = strategyOverwrite ∨ st = strategyNoClobber)
              · rw [if_pos hDir] at h
                exact absurd (congrArg Prod.snd h) (by simp)
              · rw [if_neg hDir] at h
                cases hLock : fsFind fs1 (splitPath (full ++ ".lock")) with
                | some lk =>
                  simp only [hLock] at h
                  exact absurd (congrArg Prod.snd h) (by simp)
                | none =>
                  simp only [hLock] at h
                  cases hWS : writeSwitch
                      (fsSet fs1 (splitPath (full ++ ".lock")) (.file (utf8Bytes "pid")))
                      (splitPath full) pre st dataV args.startIdx args.endIdx with
                  | error e =>
                    simp only [hWS] at h
                    exact absurd (congrArg Prod.snd h) (by simp)
                  | ok trip =>
                    obtain ⟨fs3, d2, cr⟩ := trip
                    simp only [hWS] at h
                    obtain ⟨b, hb⟩ :=
                      writeSwitch_ok_file _ _ _ _ _ _ _ _ _ _ hWS
                    simp only [hb] at h
                    simp only [Prod.mk.injEq, Except.ok.injEq] at h
                    obtain ⟨h1, h2⟩ := h
                    refine ⟨full, b, rfl, ?_, ?_, ?_⟩
                    · rw [← h1, fsFind_remove_ne _ _ _ (splitPath_lock_ne full).symm]
                      exact hb
                    · rw [← h2]
                    · rw [← h2]

/-- C9 witness: the overwrite of "A" reports one byte and the digest of
`[65]`. -/
theorem write_sha_gating_witness :
    ∃ full b, safeJoin fsC3 "/root" (wargs "A" strategyOverwrite none none).path = .ok full
      ∧ fsFind [(["root", "f.txt"], Node.file [65]), ([], Node.dir), (["root"], Node.dir)]
          (splitPath full) = some (.file b)
      ∧ (1 : Nat) = b.length
      ∧ "h1" = (if b.length ≤ maxHashBytes then hashW b else "") := by
  have h := write_sha_gating hashW mimeW fsC3 "/root" (wargs "A" strategyOverwrite none none)
    [(["root", "f.txt"], Node.file [65]), ([], Node.dir), (["root"], Node.dir)]
    { path := "f.txt", action := "overwrite", bytes := 1, created := true,
      mimeType := "text/plain; charset=utf-8", sha256 := "h1" } rfl
  exact h

/-- While the sentinel stays fresher than the staleness threshold, the
retry loop neither evicts nor acquires, and reports the timeout at the
first iteration past the deadline. -/
theorem acquireLoop_fresh_times_out (mt deadline : Nat) :
    ∀ (fuel now : Nat), now ≤ deadline + retryMs →
      deadline + retryMs ≤ mt + staleMs →
      deadline + retryMs < now + fuel * retryMs →
      ∃ tEnd, acquireLoop deadline (some mt) now fuel = .timedOut tEnd ∧ deadline < tEnd := by
  intro fuel
  induction fuel with
  | zero =>
    intro now h1 h2 h3
    omega
  | succ fuel ih =>
    intro now h1 h2 h3
    simp only [acquireLoop]
    rw [if_neg (by omega : ¬ now - mt > staleMs)]
    by_cases hd : now > deadline
    · rw [if_pos hd]
      exact ⟨now, rfl, hd⟩
    · rw [if_neg hd]
      refine ih (now + retryMs) (by omega) h2 ?_
      rw [Nat.succ_mul] at h3
      omega

/-- C7: a sentinel whose modification time is older than the ten-minute
staleness threshold is removed and the lock granted immediately (at the
current instant, without waiting out the acquisition timeout), while a
sentinel that stays fresher than the threshold for the whole wait keeps
the loop retrying and produces the lock-timeout error at the first
iteration past the deadline. -/
theorem acquireLock_stale_and_fresh :
    (∀ (mt now timeout fuel : Nat), staleMs < now - mt →
      acquireLoop (now + timeout) (some mt) now (fuel + 2) = .acquired now)
    ∧ (∀ (mt now timeout fuel : Nat),
        now + timeout + retryMs ≤ mt + staleMs →
        timeout + retryMs < fuel * retryMs →
        ∃ tEnd, acquireLoop (now + timeout) (some mt) now fuel = .timedOut tEnd
          ∧ now + timeout < tEnd) := by
  constructor
  · intro mt now timeout fuel hstale
    simp only [acquireLoop]
    rw [if_pos hstale]
  · intro mt now timeout fuel h1 h2
    exact acquireLoop_fresh_times_out mt (now + timeout) fuel now (by omega) (by omega)
      (by omega)

/-- C7 witness: a 600 001 ms old sentinel is evicted and acquired at once;
a fresh sentinel under a 100 ms timeout times out past the deadline. -/
theorem acquireLock_stale_and_fresh_witness :
    acquireLoop (600051 + 1000) (some 50) 600051 (0 + 2) = .acquired 600051
    ∧ ∃ tEnd, acquireLoop (0 + 100) (some 0) 0 4 = .timedOut tEnd ∧ 0 + 100 < tEnd :=
  ⟨acquireLock_stale_and_fresh.1 50 600051 1000 0 (by norm_num [staleMs]),
   acquireLock_stale_and_fresh.2 0 0 100 4 (by norm_num [staleMs, retryMs])
     (by norm_num [retryMs])⟩

/-- Length and stop flag of the per-file sequential scan: the accumulated
matches grow to `min max (acc + matching lines)`, and the stop signal fires
exactly when the cap is met. -/
theorem scanFileSeq_spec (pat p : String) (max : Nat) :
    ∀ (ls : List String) (n : Nat) (acc : List SearchMatch), acc.length < max →
      ((scanFileSeq pat p n ls max acc).1.length
          = min max (acc.length + (ls.filter (fun l => containsStr l pat)).length))
      ∧ ((scanFileSeq pat p n ls max acc).2 = true
          ↔ max ≤ acc.length + (ls.filter (fun l => containsStr l pat)).length) := by
  intro ls
  induction ls with
  | nil =>
    intro n acc hlt
    simp [scanFileSeq]
    omega
  | cons l ls ih =>
    intro n acc hlt
    simp only [scanFileSeq, List.filter_cons]
    by_cases hm : containsStr l pat = true
    · simp only [hm, eq_self_iff_true, if_true, List.length_cons]
      by_cases hstop : max ≤ (acc ++ [(⟨p, n, l⟩ : SearchMatch)]).length
      · rw [if_pos hstop]
        simp only [List.length_append, List.length_cons, List.length_nil] at hstop ⊢
        constructor
        · omega
        · simp only [true_iff]
          omega
      · rw [if_neg hstop]
        simp only [List.length_append, List.length_cons, List.length_nil] at hstop
        obtain ⟨ih1, ih2⟩ := ih (n + 1) (acc ++ [(⟨p, n, l⟩ : SearchMatch)]) (by simp; omega)
        constructor
        · rw [ih1]
          simp only [List.length_append, List.length_cons, List.length_nil]
          omega
        · rw [ih2]
          simp only [List.length_append, List.length_cons, List.length_nil]
          omega
    · have hmf : containsStr l pat = false := by
        simpa using hm
      simp only [hmf, Bool.false_eq_true, if_false]
      exact ih (n + 1) acc hlt

/-- The sequential walk accumulates `min max (acc + total matches)`. -/
theorem searchSeq_spec (pat : String) (max : Nat) :
    ∀ (files : List SFile) (acc : List SearchMatch), acc.length < max →
      (searchSeq pat max files acc).length = min max (acc.length + totalMatches pat files) := by
  intro files
  induction files with
  | nil =>
    intro acc hlt
    simp [searchSeq, totalMatches]
    omega
  | cons f fs ih =>
    intro acc hlt
    simp only [searchSeq]
    obtain ⟨h1, h2⟩ := scanFileSeq_spec pat f.path max f.lines 1 acc hlt
    rcases hr : scanFileSeq pat f.path 1 f.lines max acc with ⟨acc2, flag⟩
    rw [hr] at h1 h2
    have htot : totalMatches pat (f :: fs)
        = (f.lines.filter (fun l => containsStr l pat)).length + totalMatches pat fs := by
      simp [totalMatches]
    cases flag with
    | true =>
      dsimp only at h1 h2 ⊢
      have hmax : max ≤ acc.length + (f.lines.filter (fun l => containsStr l pat)).length :=
        h2.mp rfl
      rw [htot]
      omega
    | false =>
      dsimp only at h1 h2 ⊢
      have hlt2 : acc2.length < max := by
        have := (not_iff_not.mpr h2).mp (by simp)
        omega
      rw [ih acc2 hlt2, htot]
      omega

/-- C6: the sequential search loop of `main.go` returns exactly
`min maxResults N` matches over a walk with `N` matching lines — never more
than `maxResults` — but the worker pool of `search.go` appends a match
before comparing against the cap, so a worker that is already mid-file when
another worker reaches the cap still records its match: under schedule
`schedC6` (two workers, two one-line matching files, `maxResults = 1`) the
pool returns 2 matches, exceeding the cap. -/
theorem search_result_bound :
    (∀ (pat : String) (m : Nat) (files : List SFile),
      (searchSeq pat (m + 1) files []).length = min (m + 1) (totalMatches pat files))
    ∧ (crun "x" 1 (cinit filesC6 2) schedC6).found.length = 2 := by
  constructor
  · intro pat m files
    have h := searchSeq_spec pat (m + 1) files [] (by simp)
    simpa using h
  · rfl

/-- A wildcard-free pattern segment matches exactly itself. -/
theorem matchSeg_lit (ps : List Char) :
    (∀ c ∈ ps, c ≠ '*' ∧ c ≠ '?') → ∀ cs, (matchSeg ps cs = true ↔ ps = cs) := by
  induction ps with
  | nil =>
    intro _ cs
    cases cs <;> simp [matchSeg]
  | cons p ps ih =>
    intro hps cs
    have hp := hps p (by simp)
    have ihx := ih fun c hc => hps c (by simp [hc])
    cases cs with
    | nil =>
      simp only [matchSeg]
      rw [if_neg hp.1]
      simp
    | cons c cs =>
      simp only [matchSeg]
      rw [if_neg hp.1]
      simp only [decide_eq_false hp.2, Bool.false_or, Bool.and_eq_true, decide_eq_true_eq,
        ihx cs, List.cons.injEq]

/-- A leading `*` followed by a wildcard-free tail matches exactly the
segments with that tail as a suffix. -/
theorem matchSeg_star_suffix (ps : List Char) (hps : ∀ c ∈ ps, c ≠ '*' ∧ c ≠ '?') :
    ∀ cs, (matchSeg ('*' :: ps) cs = true ↔ ps <:+ cs) := by
  have hss : ∀ cs, (starSkip (matchSeg ps) cs = true ↔ ps <:+ cs) := by
    intro cs
    induction cs with
    | nil =>
      simp only [starSkip]
      rw [matchSeg_lit ps hps []]
      simp [List.suffix_nil]
    | cons c cs ihc =>
      simp only [starSkip]
      rw [Bool.or_eq_true, matchSeg_lit ps hps (c :: cs), ihc, List.suffix_cons_iff]
  intro cs
  rw [show matchSeg ('*' :: ps) cs = starSkip (matchSeg ps) cs from rfl, hss]

/-- If the continuation accepts the final singleton, star absorption
accepts the whole list. -/
theorem starSkip_of_tail {α : Type} (k : List α → Bool) (x : α) (hx : k [x] = true) :
    ∀ l : List α, starSkip k (l ++ [x]) = true := by
  intro l
  induction l with
  | nil => simp [starSkip, hx]
  | cons a l ih => simp [starSkip, ih]

/-- C8: with the doublestar matcher of the glob engine, the pattern
`**/*.txt` accepts a `.txt` file under any chain of directories (including
none), the pattern `*.txt` accepts exactly root-level `.txt` names and
rejects every path of two or more segments, and `handleGlob` returns
precisely the walked paths accepted by the cleaned pattern, truncated at
the result cap. -/
theorem glob_doublestar_depth :
    (∀ (dirs : List String) (f : String), ['.', 't', 'x', 't'] <:+ f.data →
      matchSegs (splitPath "**/*.txt") (dirs ++ [f]) = true)
    ∧ (∀ f : String, ['.', 't', 'x', 't'] <:+ f.data →
      matchSegs (splitPath "*.txt") [f] = true)
    ∧ (∀ (s1 s2 : String) (ss : List String),
      matchSegs (splitPath "*.txt") (s1 :: s2 :: ss) = false)
    ∧ (∀ (fs : FS) (root : String) (paths : List String) (pattern : String)
        (maxR : Int) (out : List String),
        handleGlob fs root paths pattern maxR = .ok out →
        out = (paths.filter (fun q => dsMatch (clean pattern) q)).take
          (if maxR ≤ 0 then defaultGlobMaxResults else maxR.toNat)) := by
  have hstar : ∀ f : String, ['.', 't', 'x', 't'] <:+ f.data →
      matchSeg ("*.txt".data) f.data = true := by
    intro f hf
    have hd : ("*.txt".data) = '*' :: ['.', 't', 'x', 't'] := rfl
    rw [hd, matchSeg_star_suffix ['.', 't', 'x', 't'] (by decide) f.data]
    exact hf
  have hone : ∀ f : String, ['.', 't', 'x', 't'] <:+ f.data →
      matchSegs ["*.txt"] [f] = true := by
    intro f hf
    rw [show matchSegs ["*.txt"] [f]
        = (matchSeg ("*.txt".data) f.data && true) from rfl]
    rw [hstar f hf]
    rfl
  refine ⟨?_, ?_, ?_, ?_⟩
  · intro dirs f hf
    rw [show splitPath "**/*.txt" = ["**", "*.txt"] from rfl]
    rw [show matchSegs ["**", "*.txt"] (dirs ++ [f])
        = starSkip (matchSegs ["*.txt"]) (dirs ++ [f]) from rfl]
    exact starSkip_of_tail _ f (hone f hf) dirs
  · intro f hf
    rw [show splitPath "*.txt" = ["*.txt"] from rfl]
    exact hone f hf
  · intro s1 s2 ss
    rw [show splitPath "*.txt" = ["*.txt"] from rfl]
    rw [show matchSegs ["*.txt"] (s1 :: s2 :: ss)
        = (matchSeg ("*.txt".data) s1.data && (s2 :: ss).isEmpty) from rfl]
    simp
  · intro fs root paths pattern maxR out h
    unfold handleGlob at h
    by_cases hp0 : pattern = ""
    · rw [if_pos hp0] at h
      exact Except.noConfusion h
    · rw [if_neg hp0] at h
      cases hS : safeJoin fs root pattern with
      | error e =>
        simp only [hS] at h
        exact Except.noConfusion h
      | ok q =>
        simp only [hS] at h
        injection h with h2
        exact h2.symm

/-- C8 witness: `a.txt` matches `**/*.txt` at depth three and `*.txt` at
the root, a two-segment path fails `*.txt`, and a concrete glob run
filters and truncates the walked paths. -/
theorem glob_doublestar_depth_witness :
    matchSegs (splitPath "**/*.txt") (["d1", "d2"] ++ ["a.txt"]) = true
    ∧ matchSegs (splitPath "*.txt") ["a.txt"] = true
    ∧ matchSegs (splitPath "*.txt") ["d1", "a.txt"] = false
    ∧ (["a.txt", "d/b.txt", "c.md"].filter
        (fun q => dsMatch (clean "**/*.txt") q)).take
          (if (10 : Int) ≤ 0 then defaultGlobMaxResults else (10 : Int).toNat)
        = ["a.txt", "d/b.txt"] := by
  refine ⟨glob_doublestar_depth.1 ["d1", "d2"] "a.txt" (by decide),
    glob_doublestar_depth.2.1 "a.txt" (by decide),
    glob_doublestar_depth.2.2.1 "d1" "a.txt" [], ?_⟩
  have h := glob_doublestar_depth.2.2.2 fsC3 "/root" ["a.txt", "d/b.txt", "c.md"]
    "**/*.txt" 10 ["a.txt", "d/b.txt"] rfl
  exact h.symm

end Cemcp